import Mathlib

/-!
# Verification of the pypes dataflow engine (src/pypes/components.py)

Shallow embedding of the graph-assembly model (Processor, Relationship,
Funnel, Pipeline) and of the execution engine (SimpleRunner), together with
proofs of the testable properties of the specification.

Processors are identified by natural-number ids (modelling the uuid of
`Processor.__init__`); an environment `Env` is the collection of live
Processor objects, keyed by id.  Generators returned by `process` are
modelled as lists of events: each pull either yields an item, raises an
exception, or hits the end of the list (StopIteration).  The runner
`SimpleRunner.run` / `_process_next` is modelled by `exec`, a fuel-indexed
interpreter (the Python loop may legitimately run forever on infinite
sources, so fuel exhaustion is reported as a distinguished outcome).
Mutable state visible to the claims (a recording sink's list, and the
setup/teardown calls made on processors) is threaded through `RunState`.
-/

namespace Pypes

/-- Processor identity: models the uuid generated in `Processor.__init__`. -/
abbrev ProcId := Nat

/-- A Python value flowing through the pipeline, as far as the claims need:
`None`, integers and strings, with Python truthiness. -/
inductive Value where
  | vnone
  | vint (n : Int)
  | vstr (s : String)
deriving DecidableEq

/-- Python truthiness of a `Value` (`bool(v)`). -/
def Value.truthy : Value → Bool
  | .vnone => false
  | .vint n => n != 0
  | .vstr s => s != ""

/-- An object yielded by a `process` generator: either a
`(relationship-name, value)` two-tuple, or a falsy object (e.g. `None`).
A non-empty tuple is always truthy in Python, whatever its components. -/
inductive Item where
  | pair (chan : String) (val : Value)
  | falsy
deriving DecidableEq

/-- Python truthiness of a yielded item (`if out:` in `_process_next`). -/
def Item.truthy : Item → Bool
  | .pair _ _ => true
  | .falsy => false

/-- One pull on a generator: it either yields an item or raises an
exception other than StopIteration; the end of the event list models
StopIteration. -/
inductive GenEvent where
  | yieldItem (it : Item)
  | raiseErr (msg : String)
deriving DecidableEq

/-- The ProcFn owned by a Processor, reduced to the shapes the claims use:
a zero-argument source returning a fixed generator, a one-argument
transform returning a generator computed from the input, and a recording
sink whose call records its input and returns `None` (no generator). -/
inductive Stage where
  | source (events : List GenEvent)
  | transform (f : Value → List GenEvent)
  | sink

/-- A Processor: id, the `_relationships` mapping (insertion-ordered
association list from channel name to the destination-id list of the
channel's Relationship), and its ProcFn. -/
structure Proc where
  pid : ProcId
  rels : List (String × List ProcId)
  stage : Stage

/-- The collection of live Processor objects, keyed by `pid`. -/
abbrev Env := List Proc

/-- The ids present in the environment. -/
def envPids (env : Env) : List ProcId := env.map (·.pid)

/-- Dereference a processor id. -/
def envLookup (env : Env) (pid : ProcId) : Option Proc :=
  env.find? (fun p => p.pid == pid)

/-- `self._relationships.get(name)`: destination list of the named
relationship, if the channel has been registered. -/
def relsGet (rels : List (String × List ProcId)) (chan : String) :
    Option (List ProcId) :=
  (rels.find? (fun r => r.1 == chan)).map (·.2)

/-- Observable mutable state of one pipeline run: the list recorded by the
recording sink, plus the order of `setup()` and `teardown()` calls. -/
structure RunState where
  recorded : List Value
  setupCalls : List ProcId
  teardownCalls : List ProcId
deriving DecidableEq

/-- Calling `proc.process(*args)`: returns the updated state and
`some generator` or `none` (the sink returns `None`). -/
def processStage (s : Stage) (input : Option Value) (st : RunState) :
    RunState × Option (List GenEvent) :=
  match s, input with
  | .source evs, _ => (st, some evs)
  | .transform f, some v => (st, some (f v))
  | .transform _, Option.none => (st, some [])
  | .sink, some v => ({ st with recorded := st.recorded ++ [v] }, Option.none)
  | .sink, Option.none => (st, Option.none)

/-- An entry of the runner's `gens` dict: the remaining events of a live
generator together with the processor that produced it. -/
structure GenEntry where
  events : List GenEvent
  owner : ProcId
deriving DecidableEq

/-- Outcome of `SimpleRunner.run`: normal return, an uncaught exception
propagating to the caller, or fuel exhaustion of the model (standing for a
run that is still going).  Every outcome carries the mutable state. -/
inductive RunResult where
  | ok (st : RunState)
  | exc (msg : String) (st : RunState)
  | noFuel (st : RunState)
deriving DecidableEq

/-- Outcome of `_process_next`: the surviving generators plus state, or a
propagating exception / fuel exhaustion. -/
inductive StepResult where
  | ok (gens : List GenEntry) (st : RunState)
  | exc (msg : String) (st : RunState)
  | noFuel (st : RunState)
deriving DecidableEq

/-- The state carried by a `RunResult`. -/
def RunResult.state : RunResult → RunState
  | .ok st => st
  | .exc _ st => st
  | .noFuel st => st

/-- The state carried by a `StepResult`. -/
def StepResult.state : StepResult → RunState
  | .ok _ st => st
  | .exc _ st => st
  | .noFuel st => st

/-- The initialisation loop of `SimpleRunner.run`: call `process(*args)`
on each processor in order and register the returned generator, skipping
processors that returned `None` (`if gen:`). -/
def initGens (env : Env) (procs : List ProcId) (input : Option Value)
    (st : RunState) : RunState × List GenEntry :=
  match procs with
  | [] => (st, [])
  | pid :: rest =>
    match envLookup env pid with
    | Option.none => initGens env rest input st
    | some p =>
      match processStage p.stage input st with
      | (st1, Option.none) => initGens env rest input st1
      | (st1, some evs) =>
        let tail := initGens env rest input st1
        (tail.1, { events := evs, owner := pid } :: tail.2)

/-- Routing of one truthy yielded item in `_process_next`: look up the
owner's relationship named `out[0]`; if it is registered, recursively run
its destinations on `out[1]`; a missing relationship name, like a falsy
yielded object, is silently discarded (`if out:` / `if rel:`). -/
def dispatchItem (env : Env)
    (dispatch : List ProcId → Value → RunState → RunResult)
    (owner : ProcId) (it : Item) (st : RunState) : RunResult :=
  match it with
  | .falsy => .ok st
  | .pair ch v =>
    match envLookup env owner with
    | Option.none => .ok st
    | some p =>
      match relsGet p.rels ch with
      | Option.none => .ok st
      | some dests => dispatch dests v st

/-- `SimpleRunner._process_next`, one pass over the live generators,
parametric in the recursive dispatch `self.run(rel.destinations, out[1])`.
Each generator is pulled exactly once: StopIteration marks it removed, an
uncaught exception propagates, and a yielded item is handled by
`dispatchItem`. -/
def oneRound (env : Env)
    (dispatch : List ProcId → Value → RunState → RunResult) :
    List GenEntry → RunState → StepResult
  | [], st => .ok [] st
  | g :: rest, st =>
    match g.events with
    | [] => oneRound env dispatch rest st
    | GenEvent.raiseErr m :: _ => .exc m st
    | GenEvent.yieldItem it :: evs =>
      match dispatchItem env dispatch g.owner it st with
      | .ok st' =>
        match oneRound env dispatch rest st' with
        | .ok gens' st'' => .ok ({ events := evs, owner := g.owner } :: gens') st''
        | r => r
      | .exc m st' => .exc m st'
      | .noFuel st' => .noFuel st'

/-- The two mutually recursive pieces of the engine: `run` (initialise the
generators, then loop) and the `while gens:` loop. -/
inductive Call where
  | run (procs : List ProcId) (input : Option Value)
  | loop (gens : List GenEntry)

/-- `SimpleRunner.run` and its `while gens:` loop, bounded by fuel.  The
recursive dispatch inside a pass re-enters `run` on the destination list
with the emitted value as sole argument. -/
def exec (env : Env) : Nat → Call → RunState → RunResult
  | 0, _, st => .noFuel st
  | Nat.succ fuel, .run procs input, st =>
    let ini := initGens env procs input st
    exec env fuel (.loop ini.2) ini.1
  | Nat.succ fuel, .loop gens, st =>
    match gens with
    | [] => .ok st
    | _ :: _ =>
      match oneRound env (fun dests v st1 => exec env fuel (.run dests (some v)) st1) gens st with
      | .ok gens' st' => exec env fuel (.loop gens') st'
      | .exc m st' => .exc m st'
      | .noFuel st' => .noFuel st'

/-- `SimpleRunner.run(procs, *args)` with the given fuel. -/
def runnerRun (env : Env) (fuel : Nat) (procs : List ProcId)
    (input : Option Value) (st : RunState) : RunResult :=
  exec env fuel (.run procs input) st

/-- One engine pass as performed inside `exec` at the given fuel level. -/
def runRound (env : Env) (fuel : Nat) :
    List GenEntry → RunState → StepResult :=
  oneRound env (fun dests v st => exec env fuel (.run dests (some v)) st)

/-- The generators surviving a pass in which no exception was raised: each
exhausted generator is removed, every other generator has consumed exactly
its head event, and the relative order is kept. -/
def survivors (gens : List GenEntry) : List GenEntry :=
  gens.filterMap (fun g =>
    match g.events with
    | [] => Option.none
    | _ :: evs => some { events := evs, owner := g.owner })

/-!
## Graph-building operators

A Relationship lives in the `_relationships` map of exactly one processor,
so its identity is the pair (owner id, channel name).  The operators below
are `Processor.__rshift__` (get-or-create a named relationship),
`Relationship.__or__` (append a destination, return it),
`Processor.__or__` (the two combined on the implicit "success" channel)
and `Funnel.__or__`.
-/

/-- Apply `f` to the processor object with the given id. -/
def updateProc (env : Env) (pid : ProcId) (f : Proc → Proc) : Env :=
  env.map (fun p => if p.pid == pid then f p else p)

/-- `self._relationships[other] = Relationship()` when absent: register an
empty relationship under `chan`, keeping an existing one untouched. -/
def relsCreate (rels : List (String × List ProcId)) (chan : String) :
    List (String × List ProcId) :=
  match relsGet rels chan with
  | some _ => rels
  | Option.none => rels ++ [(chan, [])]

/-- `Processor.__rshift__(self, other)`: get-or-create the relationship
named `chan` and return (a reference to) it. -/
def procRshift (env : Env) (pid : ProcId) (chan : String) :
    Env × (ProcId × String) :=
  (updateProc env pid (fun p => { p with rels := relsCreate p.rels chan }),
   (pid, chan))

/-- Append `dst` to the destination list registered under `chan`. -/
def relsAppendDest (rels : List (String × List ProcId)) (chan : String)
    (dst : ProcId) : List (String × List ProcId) :=
  rels.map (fun r => if r.1 == chan then (r.1, r.2 ++ [dst]) else r)

/-- `Relationship.__or__(self, other)`: append `dst` to the destinations
of the relationship `ref` and return `dst`. -/
def relConnect (env : Env) (ref : ProcId × String) (dst : ProcId) :
    Env × ProcId :=
  (updateProc env ref.1
    (fun p => { p with rels := relsAppendDest p.rels ref.2 dst }), dst)

/-- `Processor.__or__(self, other)`: pipe through the implicit "success"
relationship, creating it if absent, and return `dst`. -/
def procOr (env : Env) (src dst : ProcId) : Env × ProcId :=
  let r := procRshift env src "success"
  relConnect r.1 r.2 dst

/-- The Relationship a reference denotes, if its owner exists and the
channel is registered: its destination list. -/
def relOpt (env : Env) (ref : ProcId × String) : Option (List ProcId) :=
  (envLookup env ref.1).bind (fun p => relsGet p.rels ref.2)

/-- The destination list currently registered for a relationship
reference, `[]` when the owner or the channel does not exist. -/
def relDests (env : Env) (ref : ProcId × String) : List ProcId :=
  (relOpt env ref).getD []

/-- An input of a `Funnel`: an existing Relationship, or a bare Processor
normalised to its implicit "success" relationship. -/
inductive FunnelInput where
  | rel (ref : ProcId × String)
  | proc (pid : ProcId)

/-- The relationship reference a funnel input stands for. -/
def normInput : FunnelInput → ProcId × String
  | .rel ref => ref
  | .proc pid => (pid, "success")

/-- `input | other` for one funnel input (dynamic dispatch between
`Relationship.__or__` and `Processor.__or__`). -/
def connectOne (env : Env) (i : FunnelInput) (dst : ProcId) : Env :=
  match i with
  | .rel ref => (relConnect env ref dst).1
  | .proc pid => (procOr env pid dst).1

/-- `Funnel.__or__(self, other)`: connect every input to `dst` in order
and return `dst`. -/
def funnelOr (env : Env) (inputs : List FunnelInput) (dst : ProcId) :
    Env × ProcId :=
  (inputs.foldl (fun e i => connectOne e i dst) env, dst)

/-- A funnel input denotes a live Python object: a Relationship input is a
relationship actually registered on its owner, a Processor input is a live
processor. -/
def validInput (env : Env) : FunnelInput → Prop
  | .rel ref => (relOpt env ref).isSome = true
  | .proc pid => (envLookup env pid).isSome = true

/-!
## Pipeline: graph build and lifecycle

`Pipeline._get_graph` is a depth-first traversal from the sources that
uses the graph map itself as the visited set, so it terminates on cyclic
connection graphs.  It is modelled as a worklist recursion bounded by a
fuel argument; `graphFuel` computes a bound that is proved sufficient
(`buildGraphAux_total`), which is the termination statement.
-/

/-- A node of `Pipeline._get_graph`: the per-channel destination lists of
one processor (the processor itself is recovered through the key). -/
abbrev Node := List (String × List ProcId)

/-- The graph built by `Pipeline._get_graph`, an insertion-ordered map
from processor id to node. -/
abbrev Graph := List (ProcId × Node)

/-- The keys of the graph. -/
def graphKeys (g : Graph) : List ProcId := g.map (·.1)

/-- All destination ids of a processor, every channel in registration
order (the order `add` recurses over in `_get_graph`). -/
def allDests (p : Proc) : List ProcId :=
  p.rels.foldr (fun r acc => r.2 ++ acc) []

/-- Destinations of an id as the traversal sees them. -/
def destsOfEnv (env : Env) (pid : ProcId) : List ProcId :=
  match envLookup env pid with
  | some p => allDests p
  | Option.none => []

/-- The worklist form of `Pipeline._get_graph`'s recursive `add`: pop an
id; if it is already a key do nothing, otherwise insert its node and push
all its destinations.  `none` means the fuel ran out. -/
def buildGraphAux (env : Env) : Nat → List ProcId → Graph → Option Graph
  | _, [], g => some g
  | 0, _ :: _, _ => Option.none
  | Nat.succ fuel, pid :: ws, g =>
    if ((g.find? (fun n => n.1 == pid)).isSome : Bool) then
      buildGraphAux env fuel ws g
    else
      match envLookup env pid with
      | Option.none => buildGraphAux env fuel ws g
      | some p => buildGraphAux env fuel (allDests p ++ ws) (g ++ [(pid, p.rels)])

/-- A fuel bound sufficient for the traversal: every processor is inserted
at most once, and an insertion pushes only its own destinations. -/
def graphFuel (env : Env) (ws : List ProcId) : Nat :=
  ws.length + (env.map (fun p => (allDests p).length)).sum

/-- `Pipeline._get_graph()`. -/
def getGraph (env : Env) (sources : List ProcId) : Graph :=
  (buildGraphAux env (graphFuel env sources) sources []).getD []

/-- A Pipeline object: its registered source processors. -/
structure Pipeline where
  sources : List ProcId

/-- `Pipeline.setup()`: build the graph, then call `setup()` on every
node's processor in insertion order. -/
def pipelineSetup (env : Env) (pl : Pipeline) (st : RunState) :
    Graph × RunState :=
  let graph := getGraph env pl.sources
  (graph, { st with setupCalls := st.setupCalls ++ graphKeys graph })

/-- `Pipeline.teardown()`: call `teardown()` on every node of the graph
built by the last `setup()`. -/
def pipelineTeardown (graph : Graph) (st : RunState) : RunState :=
  { st with teardownCalls := st.teardownCalls ++ graphKeys graph }

/-- The body of `Pipeline.__exit__`: `self.setup()`, then
`self._runner.run(self._sources)` with no input, then `self.teardown()`.
There is no try/finally: an exception raised by the runner propagates at
once and the teardown line is never reached. -/
def pipelineExit (env : Env) (pl : Pipeline) (fuel : Nat) (st : RunState) :
    RunResult :=
  let s := pipelineSetup env pl st
  match runnerRun env fuel pl.sources Option.none s.2 with
  | .ok st2 => .ok (pipelineTeardown s.1 st2)
  | .exc m st2 => .exc m st2
  | .noFuel st2 => .noFuel st2

/-!
## The `with` statement protocol

A `with` block calls `__enter__(self)` and, on leaving the block, calls
`__exit__(self, exc_type, exc_value, exc_traceback)` — three arguments
besides `self`.  The call raises `TypeError` when the declared parameter
count of the method does not match.  `Pipeline.__exit__` declares three
parameters; `Processor.__exit__` declares none.  Both return `None`, which
is falsy, so a body exception is never suppressed: it is re-raised after
`__exit__` returns normally (an exception inside `__exit__` itself
replaces it).
-/

/-- Arguments the with-statement protocol passes to `__exit__` besides
`self`. -/
def withStmtExitArgCount : Nat := 3

/-- Parameters besides `self` of `def __exit__(self):` in `Processor`. -/
def processorExitArity : Nat := 0

/-- Parameters besides `self` of
`def __exit__(self, exc_type, exc_value, exc_traceback):` in `Pipeline`. -/
def pipelineExitArity : Nat := 3

/-- Call an `__exit__` method: TypeError unless the declared parameter
count matches the three protocol arguments. -/
def callExit (arity : Nat) (body : RunState → RunResult) (st : RunState) :
    RunResult :=
  if withStmtExitArgCount == arity then body st else .exc "TypeError" st

/-- `Processor.__enter__`: `self.setup()`, then return `self`. -/
def processorEnter (pid : ProcId) (st : RunState) : ProcId × RunState :=
  (pid, { st with setupCalls := st.setupCalls ++ [pid] })

/-- What the body of `Processor.__exit__` would do if it were reached:
`self.teardown()`. -/
def processorExitBody (pid : ProcId) (st : RunState) : RunResult :=
  .ok { st with teardownCalls := st.teardownCalls ++ [pid] }

/-- Re-raise the with-block body's exception (if any) once `__exit__`
returned normally; an exception from `__exit__` itself wins. -/
def propagateBody (bodyExc : Option String) : RunResult → RunResult
  | .ok st =>
    match bodyExc with
    | some m => .exc m st
    | Option.none => .ok st
  | r => r

/-- `with Processor(...) as p: body` — enter, run the body (which may
raise `bodyExc`), then call `__exit__` with the three protocol
arguments. -/
def withProcessor (pid : ProcId) (bodyExc : Option String) (st : RunState) :
    RunResult :=
  let e := processorEnter pid st
  propagateBody bodyExc (callExit processorExitArity (processorExitBody pid) e.2)

/-- `Pipeline.__enter__`: `return self`, no other effect. -/
def pipelineEnter (pl : Pipeline) (st : RunState) : Pipeline × RunState :=
  (pl, st)

/-- `with Pipeline() as p: body` — enter, run the body (which assembles
the graph and may raise `bodyExc`), then call `__exit__` with the three
protocol arguments; `env`/`pl` are the objects as the body left them. -/
def withPipeline (env : Env) (pl : Pipeline) (fuel : Nat)
    (bodyExc : Option String) (st : RunState) : RunResult :=
  let e := pipelineEnter pl st
  propagateBody bodyExc (callExit pipelineExitArity (pipelineExit env e.1 fuel) e.2)

/-- Reachability from the sources along registered destinations, the set
`Pipeline._get_graph` must enumerate. -/
inductive Reachable (env : Env) (sources : List ProcId) : ProcId → Prop where
  | src (pid : ProcId) (h : pid ∈ sources) : Reachable env sources pid
  | step (pid d : ProcId) (p : Proc) (hr : Reachable env sources pid)
      (hp : envLookup env pid = some p) (hd : d ∈ allDests p) :
      Reachable env sources d

/-- Destination lengths of the processors not yet inserted in the graph:
the quantity that strictly shrinks at every insertion of the traversal. -/
def restSum (env : Env) (g : Graph) : Nat :=
  match env with
  | [] => 0
  | p :: rest =>
    (if p.pid ∈ graphKeys g then 0 else (allDests p).length) + restSum rest g

/-- Every destination registered anywhere points at a live processor
(always true of the Python object graph: destinations are the Processor
objects themselves). -/
def ClosedEnv (env : Env) : Prop :=
  ∀ p ∈ env, ∀ d ∈ allDests p, d ∈ envPids env

/-!
## Concrete instances used by the claims
-/

/-- The empty initial run state. -/
def st0 : RunState := { recorded := [], setupCalls := [], teardownCalls := [] }

/-- The source generator of the three-item example:
`[("success","foo"), ("success","bar"), ("success","baz")]`. -/
def srcEventsFBB : List GenEvent :=
  [.yieldItem (.pair "success" (.vstr "foo")),
   .yieldItem (.pair "success" (.vstr "bar")),
   .yieldItem (.pair "success" (.vstr "baz"))]

/-- The transform of the three-item example: on input `v`, emit
`("success", v + v)`. -/
def dupStage : Value → List GenEvent := fun v =>
  match v with
  | .vstr s => [GenEvent.yieldItem (Item.pair "success" (Value.vstr (s ++ s)))]
  | _ => []

/-- Source, transform and recording sink before wiring. -/
def envFBBbase : Env :=
  [{ pid := 0, rels := [], stage := .source srcEventsFBB },
   { pid := 1, rels := [], stage := .transform dupStage },
   { pid := 2, rels := [], stage := .sink }]

/-- `src | trn | dest`: the wired three-item pipeline. -/
def envFBB : Env := (procOr (procOr envFBBbase 0 1).1 1 2).1

/-- A source emitting the pair `("success", 0)` — a truthy tuple whose
value component is falsy — wired to a recording sink. -/
def envZero : Env :=
  (procOr
    [{ pid := 0, rels := [],
       stage := .source [.yieldItem (.pair "success" (.vint 0))] },
     { pid := 1, rels := [], stage := .sink }] 0 1).1

/-- A source whose generator raises on the first pull, registered as the
only source of a pipeline. -/
def envBoom : Env :=
  [{ pid := 0, rels := [], stage := .source [.raiseErr "boom"] }]

/-- The pipeline over `envBoom`. -/
def plBoom : Pipeline := { sources := [0] }

/-- Two processors whose "success" channels point at each other: the
cyclic connection graph A -> B -> A. -/
def envCycle : Env :=
  [{ pid := 0, rels := [("success", [1])], stage := .source [] },
   { pid := 1, rels := [("success", [0])], stage := .transform (fun _ => []) }]

/-- The pipeline over `envCycle`, rooted at processor 0. -/
def plCycle : Pipeline := { sources := [0] }

/-- A single source with an empty generator, for lifecycle claims. -/
def envQuiet : Env :=
  [{ pid := 0, rels := [], stage := .source [] }]

/-- The pipeline over `envQuiet`. -/
def plQuiet : Pipeline := { sources := [0] }

/-- A processor whose "success" channel feeds the recording sink, used to
exercise single rounds of the engine. -/
def envFeed : Env :=
  [{ pid := 9, rels := [("success", [0])], stage := .source [] },
   { pid := 0, rels := [], stage := .sink }]

/-- A single processor with no relationships yet. -/
def envSingle : Env := [{ pid := 5, rels := [], stage := .sink }]

/-- Two upstream processors and a shared destination, for the funnel
claim: processor 0 already has a "success" relationship, processor 1 does
not yet. -/
def envFunnel : Env :=
  [{ pid := 0, rels := [("success", [])], stage := .source [] },
   { pid := 1, rels := [], stage := .source [] },
   { pid := 2, rels := [], stage := .sink }]

/-- The funnel inputs of the funnel claim: one explicit Relationship, one
bare Processor. -/
def funnelInputs : List FunnelInput := [.rel (0, "success"), .proc 1]

/-!
## Lemmas on one engine pass
-/

theorem survivors_nil : survivors [] = [] := rfl

theorem survivors_cons_stop (g : GenEntry) (rest : List GenEntry)
    (h : g.events = []) : survivors (g :: rest) = survivors rest := by
  simp [survivors, List.filterMap_cons, h]

theorem survivors_cons_pull (g : GenEntry) (rest : List GenEntry)
    (e : GenEvent) (evs : List GenEvent) (h : g.events = e :: evs) :
    survivors (g :: rest) =
      { events := evs, owner := g.owner } :: survivors rest := by
  simp [survivors, List.filterMap_cons, h]

theorem oneRound_ok_gens (env : Env)
    (d : List ProcId → Value → RunState → RunResult) :
    ∀ (xs : List GenEntry) (st : RunState) (xs' : List GenEntry)
      (st' : RunState),
      oneRound env d xs st = .ok xs' st' → xs' = survivors xs := by
  intro xs
  induction xs with
  | nil =>
    intro st xs' st' h
    simp only [oneRound, StepResult.ok.injEq] at h
    simp [survivors, ← h.1]
  | cons g rest ih =>
    intro st xs' st' h
    cases hev : g.events with
    | nil =>
      simp only [oneRound, hev] at h
      rw [survivors_cons_stop g rest hev]
      exact ih st xs' st' h
    | cons ev evs =>
      cases ev with
      | raiseErr m =>
        simp only [oneRound, hev] at h
        exact StepResult.noConfusion h
      | yieldItem it =>
        simp only [oneRound, hev] at h
        cases hd : dispatchItem env d g.owner it st with
        | ok st1 =>
          simp only [hd] at h
          cases hr : oneRound env d rest st1 with
          | ok gens' st'' =>
            simp only [hr, StepResult.ok.injEq] at h
            rw [survivors_cons_pull g rest _ _ hev, ← h.1,
              ih st1 gens' st'' hr]
          | exc m st2 =>
            simp only [hr] at h
            exact StepResult.noConfusion h
          | noFuel st2 =>
            simp only [hr] at h
            exact StepResult.noConfusion h
        | exc m st1 =>
          simp only [hd] at h
          exact StepResult.noConfusion h
        | noFuel st1 =>
          simp only [hd] at h
          exact StepResult.noConfusion h

theorem oneRound_append (env : Env)
    (d : List ProcId → Value → RunState → RunResult) :
    ∀ (xs ys : List GenEntry) (st st₁ st₂ : RunState)
      (xs' ys' : List GenEntry),
      oneRound env d xs st = .ok xs' st₁ →
      oneRound env d ys st₁ = .ok ys' st₂ →
      oneRound env d (xs ++ ys) st = .ok (xs' ++ ys') st₂ := by
  intro xs
  induction xs with
  | nil =>
    intro ys st st₁ st₂ xs' ys' h1 h2
    simp only [oneRound, StepResult.ok.injEq] at h1
    obtain ⟨h1a, h1b⟩ := h1
    subst h1b
    simpa [← h1a] using h2
  | cons g rest ih =>
    intro ys st st₁ st₂ xs' ys' h1 h2
    cases hev : g.events with
    | nil =>
      simp only [oneRound, hev] at h1
      simp only [List.cons_append, oneRound, hev]
      exact ih ys st st₁ st₂ xs' ys' h1 h2
    | cons ev evs =>
      cases ev with
      | raiseErr m =>
        simp only [oneRound, hev] at h1
        exact StepResult.noConfusion h1
      | yieldItem it =>
        simp only [oneRound, hev] at h1
        simp only [List.cons_append, oneRound, hev, List.append_eq]
        cases hd : dispatchItem env d g.owner it st with
        | ok st0 =>
          simp only [hd] at h1 ⊢
          cases hr : oneRound env d rest st0 with
          | ok gens' st'' =>
            simp only [hr, StepResult.ok.injEq] at h1
            obtain ⟨h1a, h1b⟩ := h1
            subst h1b
            rw [ih ys st0 st'' st₂ gens' ys' hr h2, ← h1a]
            rfl
          | exc m st2 =>
            simp only [hr] at h1
            exact StepResult.noConfusion h1
          | noFuel st2 =>
            simp only [hr] at h1
            exact StepResult.noConfusion h1
        | exc m st0 =>
          simp only [hd] at h1
          exact StepResult.noConfusion h1
        | noFuel st0 =>
          simp only [hd] at h1
          exact StepResult.noConfusion h1

theorem oneRound_raise (env : Env)
    (d : List ProcId → Value → RunState → RunResult) :
    ∀ (pre : List GenEntry) (st : RunState) (gens' : List GenEntry)
      (st' : RunState) (m : String) (evs : List GenEvent) (q : ProcId)
      (post : List GenEntry),
      oneRound env d pre st = .ok gens' st' →
      oneRound env d
        (pre ++ { events := GenEvent.raiseErr m :: evs, owner := q } :: post)
        st = .exc m st' := by
  intro pre
  induction pre with
  | nil =>
    intro st gens' st' m evs q post h
    simp only [oneRound, StepResult.ok.injEq] at h
    simp only [List.nil_append, oneRound]
    rw [h.2]
  | cons g rest ih =>
    intro st gens' st' m evs q post h
    cases hev : g.events with
    | nil =>
      simp only [oneRound, hev] at h
      simp only [List.cons_append, oneRound, hev]
      exact ih st gens' st' m evs q post h
    | cons ev evs0 =>
      cases ev with
      | raiseErr m0 =>
        simp only [oneRound, hev] at h
        exact StepResult.noConfusion h
      | yieldItem it =>
        simp only [oneRound, hev] at h
        simp only [List.cons_append, oneRound, hev, List.append_eq]
        cases hd : dispatchItem env d g.owner it st with
        | ok st0 =>
          simp only [hd] at h ⊢
          cases hr : oneRound env d rest st0 with
          | ok gens0 st'' =>
            simp only [hr, StepResult.ok.injEq] at h
            rw [ih st0 gens0 st'' m evs q post hr, h.2]
          | exc m2 st2 =>
            simp only [hr] at h
            exact StepResult.noConfusion h
          | noFuel st2 =>
            simp only [hr] at h
            exact StepResult.noConfusion h
        | exc m2 st0 =>
          simp only [hd] at h
          exact StepResult.noConfusion h
        | noFuel st0 =>
          simp only [hd] at h
          exact StepResult.noConfusion h

/-!
## The engine never calls setup or teardown

`SimpleRunner` only calls `process` on processors, so the lists of
`setup()` and `teardown()` calls are untouched by a run.
-/

theorem processStage_life (s : Stage) (input : Option Value)
    (st : RunState) :
    (processStage s input st).1.setupCalls = st.setupCalls ∧
      (processStage s input st).1.teardownCalls = st.teardownCalls := by
  cases s <;> cases input <;> simp [processStage]

theorem initGens_life (env : Env) :
    ∀ (procs : List ProcId) (input : Option Value) (st : RunState),
      (initGens env procs input st).1.setupCalls = st.setupCalls ∧
        (initGens env procs input st).1.teardownCalls = st.teardownCalls := by
  intro procs
  induction procs with
  | nil => intro input st; simp [initGens]
  | cons pid rest ih =>
    intro input st
    cases hl : envLookup env pid with
    | none =>
      simp only [initGens, hl]
      exact ih input st
    | some p =>
      have hp := processStage_life p.stage input st
      cases hps : processStage p.stage input st with
      | mk st1 gen =>
        simp only [hps] at hp
        cases gen with
        | none =>
          simp only [initGens, hl, hps]
          have := ih input st1
          exact ⟨this.1.trans hp.1, this.2.trans hp.2⟩
        | some evs =>
          simp only [initGens, hl, hps]
          have := ih input st1
          exact ⟨this.1.trans hp.1, this.2.trans hp.2⟩

theorem dispatchItem_life (env : Env)
    (d : List ProcId → Value → RunState → RunResult)
    (hd : ∀ dests v st1, ((d dests v st1).state).setupCalls = st1.setupCalls ∧
      ((d dests v st1).state).teardownCalls = st1.teardownCalls)
    (owner : ProcId) (it : Item) (st : RunState) :
    ((dispatchItem env d owner it st).state).setupCalls = st.setupCalls ∧
      ((dispatchItem env d owner it st).state).teardownCalls =
        st.teardownCalls := by
  cases it with
  | falsy => simp [dispatchItem, RunResult.state]
  | pair ch v =>
    cases hl : envLookup env owner with
    | none => simp [dispatchItem, hl, RunResult.state]
    | some p =>
      cases hg : relsGet p.rels ch with
      | none => simp [dispatchItem, hl, hg, RunResult.state]
      | some dests =>
        simp only [dispatchItem, hl, hg]
        exact hd dests v st

theorem oneRound_life (env : Env)
    (d : List ProcId → Value → RunState → RunResult)
    (hd : ∀ dests v st1, ((d dests v st1).state).setupCalls = st1.setupCalls ∧
      ((d dests v st1).state).teardownCalls = st1.teardownCalls) :
    ∀ (gens : List GenEntry) (st : RunState),
      ((oneRound env d gens st).state).setupCalls = st.setupCalls ∧
        ((oneRound env d gens st).state).teardownCalls = st.teardownCalls := by
  intro gens
  induction gens with
  | nil => intro st; simp [oneRound, StepResult.state]
  | cons g rest ih =>
    intro st
    cases hev : g.events with
    | nil => simp only [oneRound, hev]; exact ih st
    | cons ev evs =>
      cases ev with
      | raiseErr m => simp only [oneRound, hev]; simp [StepResult.state]
      | yieldItem it =>
        simp only [oneRound, hev]
        have hdi := dispatchItem_life env d hd g.owner it st
        cases hdc : dispatchItem env d g.owner it st with
        | ok st1 =>
          simp only [hdc] at hdi
          simp only [hdc]
          have hrest := ih st1
          cases hr : oneRound env d rest st1 with
          | ok gens' st'' =>
            simp only [hr, StepResult.state] at hrest hdi ⊢
            exact ⟨hrest.1.trans hdi.1, hrest.2.trans hdi.2⟩
          | exc m st2 =>
            simp only [hr, StepResult.state] at hrest hdi ⊢
            exact ⟨hrest.1.trans hdi.1, hrest.2.trans hdi.2⟩
          | noFuel st2 =>
            simp only [hr, StepResult.state] at hrest hdi ⊢
            exact ⟨hrest.1.trans hdi.1, hrest.2.trans hdi.2⟩
        | exc m st1 =>
          simp only [hdc] at hdi
          simp only [hdc]
          simpa [StepResult.state] using hdi
        | noFuel st1 =>
          simp only [hdc] at hdi
          simp only [hdc]
          simpa [StepResult.state] using hdi

theorem exec_life (env : Env) :
    ∀ (fuel : Nat) (c : Call) (st : RunState),
      ((exec env fuel c st).state).setupCalls = st.setupCalls ∧
        ((exec env fuel c st).state).teardownCalls = st.teardownCalls := by
  intro fuel
  induction fuel with
  | zero => intro c st; simp [exec, RunResult.state]
  | succ fuel ih =>
    intro c st
    cases c with
    | run procs input =>
      simp only [exec]
      have hi := initGens_life env procs input st
      have he := ih (.loop (initGens env procs input st).2)
        (initGens env procs input st).1
      exact ⟨he.1.trans hi.1, he.2.trans hi.2⟩
    | loop gens =>
      cases gens with
      | nil => simp [exec, RunResult.state]
      | cons g rest =>
        simp only [exec]
        have hro := oneRound_life env
          (fun dests v st1 => exec env fuel (.run dests (some v)) st1)
          (fun dests v st1 => ih (.run dests (some v)) st1) (g :: rest) st
        cases hor : oneRound env
            (fun dests v st1 => exec env fuel (.run dests (some v)) st1)
            (g :: rest) st with
        | ok gens' st' =>
          simp only [hor] at hro
          simp only [StepResult.state] at hro
          have he := ih (.loop gens') st'
          exact ⟨he.1.trans hro.1, he.2.trans hro.2⟩
        | exc m st' =>
          simp only [hor] at hro
          simpa [StepResult.state, RunResult.state] using hro
        | noFuel st' =>
          simp only [hor] at hro
          simpa [StepResult.state, RunResult.state] using hro

theorem runnerRun_life (env : Env) (fuel : Nat) (procs : List ProcId)
    (input : Option Value) (st : RunState) :
    ((runnerRun env fuel procs input st).state).setupCalls = st.setupCalls ∧
      ((runnerRun env fuel procs input st).state).teardownCalls =
        st.teardownCalls :=
  exec_life env fuel (.run procs input) st

/-!
## Claims about the execution engine
-/

/-- C2: the source emitting `("success","foo")`, `("success","bar")`,
`("success","baz")`, piped through the self-appending transform and into
the recording sink, leaves exactly `["foofoo","barbar","bazbaz"]` in the
sink, in that order, after one run of `SimpleRunner.run` on the source. -/
theorem c2_three_item_pipeline :
    runnerRun envFBB 30 [0] Option.none st0 =
      .ok { recorded := [Value.vstr "foofoo", Value.vstr "barbar",
                         Value.vstr "bazbaz"],
            setupCalls := [], teardownCalls := [] } := by
  decide

/-- C5: in one engine pass, sequences are serviced in registration order
(the pass over an append is the pass over the first block followed by the
pass over the second), each live sequence consumes exactly one event, a
sequence hitting end-of-sequence is dropped only for the next round while
later sequences of the same round are still serviced, and survivors keep
their relative order — all expressed by `survivors`. -/
theorem c5_round_ordering :
    ∀ (env : Env) (fuel : Nat) (xs ys : List GenEntry) (st st₁ st₂ : RunState)
      (xs' ys' : List GenEntry),
      runRound env fuel xs st = .ok xs' st₁ →
      runRound env fuel ys st₁ = .ok ys' st₂ →
      xs' = survivors xs ∧ ys' = survivors ys ∧
        runRound env fuel (xs ++ ys) st = .ok (xs' ++ ys') st₂ := by
  intro env fuel xs ys st st₁ st₂ xs' ys' h1 h2
  simp only [runRound] at h1 h2 ⊢
  exact ⟨oneRound_ok_gens env _ xs st xs' st₁ h1,
    oneRound_ok_gens env _ ys st₁ ys' st₂ h2,
    oneRound_append env _ xs ys st st₁ st₂ xs' ys' h1 h2⟩

/-- Witness for C5 at a concrete round: a sequence yielding one falsy item
followed by an already exhausted sequence. -/
theorem c5_round_ordering_witness :
    runRound envFeed 5
        [{ events := [GenEvent.yieldItem Item.falsy], owner := 3 }] st0 =
      .ok [{ events := [], owner := 3 }] st0 ∧
    runRound envFeed 5 [{ events := [], owner := 4 }] st0 = .ok [] st0 ∧
    (([{ events := [], owner := 3 }] : List GenEntry) =
        survivors [{ events := [GenEvent.yieldItem Item.falsy], owner := 3 }] ∧
      (([] : List GenEntry)) = survivors [{ events := [], owner := 4 }] ∧
      runRound envFeed 5
          ([{ events := [GenEvent.yieldItem Item.falsy], owner := 3 }] ++
            [{ events := [], owner := 4 }]) st0 =
        .ok ([{ events := [], owner := 3 }] ++ []) st0) :=
  ⟨by decide, by decide,
    c5_round_ordering envFeed 5
      [{ events := [GenEvent.yieldItem Item.falsy], owner := 3 }]
      [{ events := [], owner := 4 }] st0 st0 st0
      [{ events := [], owner := 3 }] [] (by decide) (by decide)⟩

/-- C6: an exception other than StopIteration raised while pulling from a
sequence is not caught: the pass stops at that sequence with the state
exactly as left by the sequences already serviced (so dispatches completed
earlier in the round are kept and neither the raising sequence's remaining
events nor the later sequences are touched), the `while gens:` loop
propagates it, and `run` itself delegates to that loop, so the exception
reaches the caller of `run`. -/
theorem c6_exception_propagation :
    ∀ (env : Env) (fuel : Nat) (pre post : List GenEntry)
      (evs : List GenEvent) (q : ProcId) (m : String) (st : RunState)
      (gens' : List GenEntry) (st' : RunState),
      runRound env fuel pre st = .ok gens' st' →
      runRound env fuel
          (pre ++ { events := GenEvent.raiseErr m :: evs, owner := q } :: post)
          st = .exc m st' ∧
        (∀ (gens0 : List GenEntry) (stA : RunState),
          runRound env fuel gens0 stA = .exc m st' →
          exec env (Nat.succ fuel) (.loop gens0) stA = .exc m st') ∧
        (∀ (procs : List ProcId) (input : Option Value) (stB : RunState),
          exec env (Nat.succ fuel) (.run procs input) stB =
            exec env fuel (.loop (initGens env procs input stB).2)
              (initGens env procs input stB).1) := by
  intro env fuel pre post evs q m st gens' st' h1
  refine ⟨?_, ?_, ?_⟩
  · simp only [runRound] at h1 ⊢
    exact oneRound_raise env _ pre st gens' st' m evs q post h1
  · intro gens0 stA h
    cases gens0 with
    | nil =>
      simp only [runRound, oneRound] at h
      exact StepResult.noConfusion h
    | cons g rest =>
      simp only [runRound] at h
      simp only [exec, h]
  · intro procs input stB
    simp only [exec]

/-- Witness for C6: a sequence that dispatched `"a"` into the sink is
followed by a sequence raising `"crash"`; the pass aborts with `"crash"`
and the sink still holds `"a"`. -/
theorem c6_exception_propagation_witness :
    runRound envFeed 5
        [{ events := [GenEvent.yieldItem (Item.pair "success" (Value.vstr "a"))],
           owner := 9 }] st0 =
      .ok [{ events := [], owner := 9 }]
        { recorded := [Value.vstr "a"], setupCalls := [], teardownCalls := [] } ∧
    runRound envFeed 5
        ([{ events := [GenEvent.yieldItem (Item.pair "success" (Value.vstr "a"))],
            owner := 9 }] ++
          { events := GenEvent.raiseErr "crash" :: [GenEvent.yieldItem Item.falsy],
            owner := 7 } :: []) st0 =
      .exc "crash"
        { recorded := [Value.vstr "a"], setupCalls := [], teardownCalls := [] } :=
  ⟨by decide,
    (c6_exception_propagation envFeed 5
      [{ events := [GenEvent.yieldItem (Item.pair "success" (Value.vstr "a"))],
         owner := 9 }] [] [GenEvent.yieldItem Item.falsy] 7
      "crash" st0 [{ events := [], owner := 9 }]
      { recorded := [Value.vstr "a"], setupCalls := [], teardownCalls := [] }
      (by decide)).1⟩

/-- C4 counterexample: the pair `("success", 0)` has a falsy value
component, yet after a run of the wired source-to-sink pipeline the sink
was invoked with `0` — the emission was dispatched, not discarded.  The
engine's `if out:` tests the yielded tuple, which is truthy, never the
value inside it. -/
theorem c4_falsy_value_dispatched :
    Value.truthy (Value.vint 0) = false ∧
      runnerRun envZero 20 [0] Option.none st0 =
        .ok { recorded := [Value.vint 0], setupCalls := [],
              teardownCalls := [] } :=
  ⟨rfl, by decide⟩

/-- C4 (amended): an emission is suppressed exactly when the yielded
object itself is falsy (e.g. `None`): such an item is skipped with no
dispatch and the sequence stays live; a `(channel, value)` pair is a
non-empty tuple, hence truthy whatever its value component, so it is
dispatched normally. -/
theorem c4_falsy_item_suppressed :
    ∀ (env : Env) (fuel : Nat) (evs : List GenEvent) (p : ProcId)
      (rest : List GenEntry) (st : RunState) (ch : String) (v : Value),
      Item.truthy (Item.pair ch v) = true ∧
        Item.truthy Item.falsy = false ∧
        runRound env fuel
            ({ events := GenEvent.yieldItem Item.falsy :: evs, owner := p }
              :: rest) st =
          (match runRound env fuel rest st with
           | .ok gens' st' =>
              .ok ({ events := evs, owner := p } :: gens') st'
           | r => r) := by
  intro env fuel evs p rest st ch v
  refine ⟨rfl, rfl, ?_⟩
  cases h : runRound env fuel rest st with
  | ok gens' stq =>
    simp only [runRound] at h
    simp only [runRound, oneRound, dispatchItem, h]
  | exc m stq =>
    simp only [runRound] at h
    simp only [runRound, oneRound, dispatchItem, h]
  | noFuel stq =>
    simp only [runRound] at h
    simp only [runRound, oneRound, dispatchItem, h]

/-!
## Lemmas on the graph-building operators
-/

theorem find?_cons_eq {α : Type} (p : α → Bool) (a : α) (l : List α) :
    List.find? p (a :: l) = if p a then some a else List.find? p l := by
  cases h : p a <;> simp [List.find?, h]

theorem envLookup_cons (p : Proc) (rest : List Proc) (pid : ProcId) :
    envLookup (p :: rest) pid =
      if p.pid = pid then some p else envLookup rest pid := by
  by_cases h : p.pid = pid <;> simp [envLookup, find?_cons_eq, h]

theorem relsGet_cons (r : String × List ProcId)
    (rest : List (String × List ProcId)) (chan : String) :
    relsGet (r :: rest) chan =
      if r.1 = chan then some r.2 else relsGet rest chan := by
  by_cases h : r.1 = chan <;> simp [relsGet, find?_cons_eq, h]

theorem updateProc_cons (p : Proc) (rest : List Proc) (pid : ProcId)
    (f : Proc → Proc) :
    updateProc (p :: rest) pid f =
      (if p.pid = pid then f p else p) :: updateProc rest pid f := by
  by_cases h : p.pid = pid <;> simp [updateProc, h]

theorem relsAppendDest_cons (r : String × List ProcId)
    (rest : List (String × List ProcId)) (chan : String) (dst : ProcId) :
    relsAppendDest (r :: rest) chan dst =
      (if r.1 = chan then (r.1, r.2 ++ [dst]) else r) ::
        relsAppendDest rest chan dst := by
  by_cases h : r.1 = chan <;> simp [relsAppendDest, h]

theorem envLookup_updateProc_self (env : Env) (pid : ProcId) (f : Proc → Proc)
    (hf : ∀ p, (f p).pid = p.pid) :
    envLookup (updateProc env pid f) pid = (envLookup env pid).map f := by
  induction env with
  | nil => rfl
  | cons p rest ih =>
    rw [updateProc_cons, envLookup_cons, envLookup_cons]
    by_cases h : p.pid = pid
    · simp [h, hf]
    · simp [h, ih]

theorem envLookup_updateProc_other (env : Env) (pid : ProcId)
    (f : Proc → Proc) (hf : ∀ p, (f p).pid = p.pid) (pid' : ProcId)
    (h : pid' ≠ pid) :
    envLookup (updateProc env pid f) pid' = envLookup env pid' := by
  induction env with
  | nil => rfl
  | cons p rest ih =>
    rw [updateProc_cons, envLookup_cons, envLookup_cons]
    by_cases hp : p.pid = pid
    · simp only [hp, if_true]
      rw [if_neg (show (f p).pid ≠ pid' by rw [hf, hp]; exact Ne.symm h),
        if_neg (Ne.symm h)]
      exact ih
    · simp only [hp, if_false, Bool.false_eq_true, reduceIte]
      by_cases hq : p.pid = pid'
      · simp [hq]
      · simp [hq, ih]

theorem envLookup_updateProc_isSome (env : Env) (pid q : ProcId)
    (f : Proc → Proc) (hf : ∀ p, (f p).pid = p.pid) :
    (envLookup (updateProc env q f) pid).isSome =
      (envLookup env pid).isSome := by
  by_cases h : pid = q
  · subst h
    rw [envLookup_updateProc_self env pid f hf]
    cases envLookup env pid <;> simp
  · rw [envLookup_updateProc_other env q f hf pid h]

theorem relsGet_append_new (rels : List (String × List ProcId))
    (chan : String) (h : relsGet rels chan = Option.none) :
    relsGet (rels ++ [(chan, [])]) chan = some [] := by
  induction rels with
  | nil => simp [relsGet, find?_cons_eq]
  | cons r rest ih =>
    rw [relsGet_cons] at h
    rw [List.cons_append, relsGet_cons]
    by_cases hr : r.1 = chan
    · simp [hr] at h
    · simp only [hr, if_false, Bool.false_eq_true, reduceIte] at h ⊢
      exact ih h

theorem relsGet_appendDest_self (rels : List (String × List ProcId))
    (chan : String) (dst : ProcId) :
    relsGet (relsAppendDest rels chan dst) chan =
      (relsGet rels chan).map (fun l => l ++ [dst]) := by
  induction rels with
  | nil => rfl
  | cons r rest ih =>
    rw [relsAppendDest_cons, relsGet_cons, relsGet_cons]
    by_cases hr : r.1 = chan
    · simp [hr]
    · simp [hr, ih]

theorem relsGet_appendDest_other (rels : List (String × List ProcId))
    (chan : String) (dst : ProcId) (chan' : String) (h : chan' ≠ chan) :
    relsGet (relsAppendDest rels chan dst) chan' = relsGet rels chan' := by
  induction rels with
  | nil => rfl
  | cons r rest ih =>
    rw [relsAppendDest_cons, relsGet_cons, relsGet_cons]
    by_cases hr : r.1 = chan
    · simp only [hr, if_true]
      rw [if_neg (Ne.symm h), if_neg (Ne.symm h)]
      exact ih
    · simp only [hr, if_false, Bool.false_eq_true, reduceIte]
      rw [ih]

theorem relsGet_create_self (rels : List (String × List ProcId))
    (chan : String) :
    relsGet (relsCreate rels chan) chan =
      some ((relsGet rels chan).getD []) := by
  cases h : relsGet rels chan with
  | none =>
    simp only [relsCreate, h]
    simpa using relsGet_append_new rels chan h
  | some l => simp [relsCreate, h]

theorem relsGet_append_single_other (rels : List (String × List ProcId))
    (chan chan' : String) (h : chan' ≠ chan) :
    relsGet (rels ++ [(chan, [])]) chan' = relsGet rels chan' := by
  induction rels with
  | nil =>
    simp only [List.nil_append, relsGet_cons]
    rw [if_neg (fun hh => h hh.symm)]
  | cons r rest ih =>
    rw [List.cons_append, relsGet_cons, relsGet_cons]
    by_cases hr : r.1 = chan'
    · simp [hr]
    · simp only [hr, if_false, Bool.false_eq_true, reduceIte]
      exact ih

theorem relsGet_create_other (rels : List (String × List ProcId))
    (chan chan' : String) (h : chan' ≠ chan) :
    relsGet (relsCreate rels chan) chan' = relsGet rels chan' := by
  cases hc : relsGet rels chan with
  | some l => simp [relsCreate, hc]
  | none =>
    simp only [relsCreate, hc]
    exact relsGet_append_single_other rels chan chan' h

theorem relsCreate_of_isSome (rels : List (String × List ProcId))
    (chan : String) (l : List ProcId) (h : relsGet rels chan = some l) :
    relsCreate rels chan = rels := by
  simp [relsCreate, h]

theorem updateProc_eq_self (env : Env) (pid : ProcId) (f : Proc → Proc)
    (h : ∀ q ∈ env, q.pid = pid → f q = q) : updateProc env pid f = env := by
  unfold updateProc
  conv_rhs => rw [← List.map_id env]
  apply List.map_congr_left
  intro q hq
  by_cases hb : q.pid = pid
  · simp [hb, h q hq hb]
  · simp [hb]

theorem procRshift_snd (env : Env) (pid : ProcId) (chan : String) :
    (procRshift env pid chan).2 = (pid, chan) := rfl

theorem relOpt_relConnect_self (env : Env) (ref : ProcId × String)
    (dst : ProcId) (l : List ProcId) (h : relOpt env ref = some l) :
    relOpt (relConnect env ref dst).1 ref = some (l ++ [dst]) := by
  cases he : envLookup env ref.1 with
  | none => simp [relOpt, he] at h
  | some p =>
    rw [relOpt, he] at h
    simp only [Option.some_bind] at h
    have hl := envLookup_updateProc_self env ref.1
      (fun p => { p with rels := relsAppendDest p.rels ref.2 dst })
      (fun _ => rfl)
    rw [relConnect, relOpt]
    simp only [hl, he, Option.map_some', Option.some_bind]
    rw [relsGet_appendDest_self, h]
    rfl

theorem relOpt_relConnect_other (env : Env) (ref : ProcId × String)
    (dst : ProcId) (ref' : ProcId × String) (h : ref' ≠ ref) :
    relOpt (relConnect env ref dst).1 ref' = relOpt env ref' := by
  by_cases h1 : ref'.1 = ref.1
  · have h2 : ref'.2 ≠ ref.2 := by
      intro h2
      exact h (Prod.ext h1 h2)
    have hl := envLookup_updateProc_self env ref.1
      (fun p => { p with rels := relsAppendDest p.rels ref.2 dst })
      (fun _ => rfl)
    cases he : envLookup env ref.1 with
    | none =>
      rw [he] at hl
      rw [relConnect, relOpt, h1, hl, relOpt, h1, he]
      rfl
    | some p =>
      rw [he] at hl
      rw [relConnect, relOpt, h1, hl, relOpt, h1, he]
      simp only [Option.map_some', Option.some_bind]
      exact relsGet_appendDest_other p.rels ref.2 dst ref'.2 h2
  · have hl := envLookup_updateProc_other env ref.1
      (fun p => { p with rels := relsAppendDest p.rels ref.2 dst })
      (fun _ => rfl) ref'.1 h1
    rw [relConnect, relOpt, hl, relOpt]

theorem relOpt_procRshift_self (env : Env) (pid : ProcId) (chan : String)
    (p : Proc) (h : envLookup env pid = some p) :
    relOpt (procRshift env pid chan).1 (pid, chan) =
      some ((relsGet p.rels chan).getD []) := by
  have hl := envLookup_updateProc_self env pid
    (fun p => { p with rels := relsCreate p.rels chan }) (fun _ => rfl)
  rw [procRshift, relOpt]
  simp only [hl, h, Option.map_some', Option.some_bind]
  exact relsGet_create_self p.rels chan

theorem relOpt_procRshift_other (env : Env) (pid : ProcId) (chan : String)
    (ref' : ProcId × String) (h : ref' ≠ (pid, chan)) :
    relOpt (procRshift env pid chan).1 ref' = relOpt env ref' := by
  by_cases h1 : ref'.1 = pid
  · have h2 : ref'.2 ≠ chan := by
      intro h2
      exact h (Prod.ext h1 h2)
    have hl := envLookup_updateProc_self env pid
      (fun p => { p with rels := relsCreate p.rels chan }) (fun _ => rfl)
    cases he : envLookup env pid with
    | none =>
      rw [he] at hl
      rw [procRshift, relOpt, h1, hl, relOpt, h1, he]
      rfl
    | some p =>
      rw [he] at hl
      rw [procRshift, relOpt, h1, hl, relOpt, h1, he]
      simp only [Option.map_some', Option.some_bind]
      exact relsGet_create_other p.rels chan ref'.2 h2
  · have hl := envLookup_updateProc_other env pid
      (fun p => { p with rels := relsCreate p.rels chan })
      (fun _ => rfl) ref'.1 h1
    rw [procRshift, relOpt, hl, relOpt]

theorem procOr_env (env : Env) (src dst : ProcId) :
    (procOr env src dst).1 =
      (relConnect (procRshift env src "success").1 (src, "success") dst).1 :=
  rfl

theorem connectOne_action (env : Env) (i : FunnelInput) (dst : ProcId)
    (hv : validInput env i) :
    relDests (connectOne env i dst) (normInput i) =
      relDests env (normInput i) ++ [dst] := by
  cases i with
  | rel ref =>
    simp only [validInput, Option.isSome_iff_exists] at hv
    obtain ⟨l, hl⟩ := hv
    simp [connectOne, normInput, relDests,
      relOpt_relConnect_self env ref dst l hl, hl]
  | proc pid =>
    simp only [validInput, Option.isSome_iff_exists] at hv
    obtain ⟨p, hp⟩ := hv
    have h1 := relOpt_procRshift_self env pid "success" p hp
    have h2 := relOpt_relConnect_self (procRshift env pid "success").1
      (pid, "success") dst ((relsGet p.rels "success").getD []) h1
    simp only [connectOne, normInput, procOr_env, relDests]
    rw [h2, relOpt, hp]
    simp

theorem connectOne_frame (env : Env) (i : FunnelInput) (dst : ProcId)
    (ref' : ProcId × String) (h : ref' ≠ normInput i) :
    relOpt (connectOne env i dst) ref' = relOpt env ref' := by
  cases i with
  | rel ref =>
    simp only [normInput] at h
    simp [connectOne, relOpt_relConnect_other env ref dst ref' h]
  | proc pid =>
    simp only [normInput] at h
    rw [connectOne, procOr_env,
      relOpt_relConnect_other _ (pid, "success") dst ref' h,
      relOpt_procRshift_other env pid "success" ref' h]

theorem connectOne_valid (env : Env) (i : FunnelInput) (dst : ProcId)
    (j : FunnelInput) (hj : validInput env j) :
    validInput (connectOne env i dst) j := by
  cases j with
  | rel ref =>
    simp only [validInput] at hj ⊢
    by_cases he : ref = normInput i
    · subst he
      cases i with
      | rel refI =>
        simp only [normInput] at hj ⊢
        obtain ⟨l, hl⟩ := Option.isSome_iff_exists.mp hj
        simp [connectOne, relOpt_relConnect_self env refI dst l hl]
      | proc pidI =>
        simp only [normInput] at hj ⊢
        cases hp : envLookup env pidI with
        | none => simp [relOpt, hp] at hj
        | some p =>
          have h1 := relOpt_procRshift_self env pidI "success" p hp
          have h2 := relOpt_relConnect_self (procRshift env pidI "success").1
            (pidI, "success") dst ((relsGet p.rels "success").getD []) h1
          rw [connectOne, procOr_env, h2]
          rfl
    · rw [connectOne_frame env i dst ref he]
      exact hj
  | proc pid =>
    simp only [validInput] at hj ⊢
    cases i with
    | rel refI =>
      simp only [connectOne, relConnect]
      rw [envLookup_updateProc_isSome env pid refI.1
        (fun p => { p with rels := relsAppendDest p.rels refI.2 dst })
        (fun _ => rfl)]
      exact hj
    | proc pidI =>
      simp only [connectOne, procOr_env, relConnect]
      rw [envLookup_updateProc_isSome (procRshift env pidI "success").1 pid pidI
        (fun p => { p with rels := relsAppendDest p.rels "success" dst })
        (fun _ => rfl)]
      simp only [procRshift]
      rw [envLookup_updateProc_isSome env pid pidI
        (fun p => { p with rels := relsCreate p.rels "success" })
        (fun _ => rfl)]
      exact hj

theorem funnel_fold_frame (dst : ProcId) (ref' : ProcId × String) :
    ∀ (inputs : List FunnelInput) (env : Env),
      (∀ i ∈ inputs, ref' ≠ normInput i) →
      relOpt ((funnelOr env inputs dst).1) ref' = relOpt env ref' := by
  intro inputs
  induction inputs with
  | nil => intro env _; rfl
  | cons i0 rest ih =>
    intro env h
    simp only [funnelOr, List.foldl_cons]
    have := ih (connectOne env i0 dst)
      (fun i hi => h i (List.mem_cons_of_mem i0 hi))
    simp only [funnelOr] at this
    rw [this,
      connectOne_frame env i0 dst ref' (h i0 (List.mem_cons_self i0 rest))]

/-!
## Claims about the graph-building operators
-/

/-- C7: requesting a channel `chan` that has no prior connection on a
live processor registers a fresh relationship with an empty destination
list under `chan` and returns it; requesting the same channel again
returns the same relationship (same owner/name reference) and leaves the
whole processor store untouched — an idempotent lookup-or-create. -/
theorem c7_channel_idempotent :
    ∀ (env : Env) (pid : ProcId) (chan : String) (p : Proc),
      envLookup env pid = some p →
      relsGet p.rels chan = Option.none →
      (procRshift env pid chan).2 = (pid, chan) ∧
        relOpt (procRshift env pid chan).1 (pid, chan) = some [] ∧
        procRshift (procRshift env pid chan).1 pid chan =
          ((procRshift env pid chan).1, (pid, chan)) := by
  intro env pid chan p hp hnone
  refine ⟨rfl, ?_, ?_⟩
  · rw [relOpt_procRshift_self env pid chan p hp, hnone]
    rfl
  · simp only [procRshift, Prod.mk.injEq]
    refine ⟨?_, trivial⟩
    apply updateProc_eq_self
    intro q hq hqpid
    simp only [updateProc] at hq
    obtain ⟨q0, _, hq0⟩ := List.mem_map.mp hq
    have hsome : (relsGet q.rels chan).isSome := by
      cases hb : q0.pid == pid with
      | true =>
        rw [← hq0]
        simp only [hb, if_true]
        simp [relsGet_create_self]
      | false =>
        exfalso
        rw [← hq0] at hqpid
        simp only [hb, Bool.false_eq_true, if_false, reduceIte] at hqpid
        simp [beq_iff_eq, hqpid] at hb
    obtain ⟨l, hl⟩ := Option.isSome_iff_exists.mp hsome
    rw [relsCreate_of_isSome q.rels chan l hl]

/-- Witness for C7 on a one-processor store with no relationships. -/
theorem c7_channel_idempotent_witness :
    envLookup envSingle 5 =
        some { pid := 5, rels := [], stage := Stage.sink } ∧
    relsGet ([] : List (String × List ProcId)) "failure" = Option.none ∧
    ((procRshift envSingle 5 "failure").2 = (5, "failure") ∧
      relOpt (procRshift envSingle 5 "failure").1 (5, "failure") = some [] ∧
      procRshift (procRshift envSingle 5 "failure").1 5 "failure" =
        ((procRshift envSingle 5 "failure").1, (5, "failure"))) :=
  ⟨rfl, rfl,
    c7_channel_idempotent envSingle 5 "failure"
      { pid := 5, rels := [], stage := Stage.sink } rfl rfl⟩

/-- C8: connecting a funnel over distinct inputs (Relationships, or bare
Processors normalised to their auto-created "success" relationship) to a
destination appends the destination exactly once to every input's
destination list and the operation returns the destination. -/
theorem c8_funnel_connect :
    ∀ (inputs : List FunnelInput) (env : Env) (dst : ProcId),
      (inputs.map normInput).Nodup →
      (∀ i ∈ inputs, validInput env i) →
      (funnelOr env inputs dst).2 = dst ∧
        ∀ i ∈ inputs,
          relDests (funnelOr env inputs dst).1 (normInput i) =
            relDests env (normInput i) ++ [dst] := by
  intro inputs
  induction inputs with
  | nil =>
    intro env dst _ _
    exact ⟨rfl, fun i hi => absurd hi (List.not_mem_nil i)⟩
  | cons i0 rest ih =>
    intro env dst hnd hv
    refine ⟨rfl, ?_⟩
    intro i hi
    simp only [List.map_cons, List.nodup_cons] at hnd
    rcases List.mem_cons.mp hi with rfl | hir
    · have hframe := funnel_fold_frame dst (normInput i) rest
        (connectOne env i dst)
        (fun j hj hje => hnd.1 (hje ▸ List.mem_map_of_mem normInput hj))
      simp only [funnelOr, List.foldl_cons]
      simp only [funnelOr] at hframe
      simp only [relDests, hframe]
      exact connectOne_action env i dst (hv i (List.mem_cons_self i rest))
    · have hne : normInput i ≠ normInput i0 := by
        intro he
        exact hnd.1 (he ▸ List.mem_map_of_mem normInput hir)
      have := (ih (connectOne env i0 dst) dst hnd.2
        (fun j hj => connectOne_valid env i0 dst j
          (hv j (List.mem_cons_of_mem i0 hj)))).2 i hir
      simp only [funnelOr, List.foldl_cons]
      simp only [funnelOr] at this
      rw [this]
      simp only [relDests, connectOne_frame env i0 dst (normInput i) hne]

/-- Witness for C8 on a concrete store: a registered (empty) "success"
relationship and a bare processor funnelled into processor 2. -/
theorem c8_funnel_connect_witness :
    (funnelInputs.map normInput).Nodup ∧
    ((funnelOr envFunnel funnelInputs 2).2 = 2 ∧
      ∀ i ∈ funnelInputs,
        relDests (funnelOr envFunnel funnelInputs 2).1 (normInput i) =
          relDests envFunnel (normInput i) ++ [2]) :=
  ⟨by decide,
    c8_funnel_connect funnelInputs envFunnel 2 (by decide)
      (by
        intro i hi
        simp only [funnelInputs, List.mem_cons, List.not_mem_nil,
          or_false] at hi
        rcases hi with rfl | rfl
        · exact rfl
        · exact rfl)⟩


/-!
## Claims about the context-manager protocol and the pipeline lifecycle
-/

/-- C9: entering `with Processor(...)` calls `setup()` and returns the
processor, but every exit path — body raised or not — fails with a
`TypeError`, because `Processor.__exit__` declares no parameters besides
`self` while the protocol passes three; so `teardown()` is never reached
through the context manager. -/
theorem c9_processor_exit_type_error :
    ∀ (pid : ProcId) (bodyExc : Option String) (st : RunState),
      processorEnter pid st =
        (pid, { st with setupCalls := st.setupCalls ++ [pid] }) ∧
      withStmtExitArgCount ≠ processorExitArity ∧
      withProcessor pid bodyExc st =
        .exc "TypeError" { st with setupCalls := st.setupCalls ++ [pid] } ∧
      ((withProcessor pid bodyExc st).state).teardownCalls =
        st.teardownCalls := by
  intro pid bodyExc st
  exact ⟨rfl, by decide, rfl, rfl⟩

/-- C10: entering `with Pipeline() as p` performs no setup and returns the
pipeline with the state untouched; `__exit__` matches the protocol's three
arguments, and on block exit the whole `setup / run(sources) / teardown`
sequence executes — also when the body raised — after which a body
exception is re-raised (never suppressed, `__exit__` returns `None`). -/
theorem c10_pipeline_with_block :
    ∀ (env : Env) (pl : Pipeline) (fuel : Nat) (st : RunState)
      (bodyExc : Option String) (st' : RunState),
      pipelineEnter pl st = (pl, st) ∧
      withStmtExitArgCount = pipelineExitArity ∧
      (pipelineExit env pl fuel st = .ok st' →
        withPipeline env pl fuel bodyExc st =
          (match bodyExc with
           | some m => RunResult.exc m st'
           | Option.none => RunResult.ok st')) := by
  intro env pl fuel st bodyExc st'
  refine ⟨rfl, rfl, ?_⟩
  intro h
  cases bodyExc with
  | none =>
    simp [withPipeline, pipelineEnter, callExit, withStmtExitArgCount,
      pipelineExitArity, h, propagateBody]
  | some m =>
    simp [withPipeline, pipelineEnter, callExit, withStmtExitArgCount,
      pipelineExitArity, h, propagateBody]

/-- Witness for C10: a pipeline over one silent source; the body raises
`"bodyboom"`, the pipeline still sets up, runs and tears down, and the
body exception emerges afterwards. -/
theorem c10_pipeline_with_block_witness :
    pipelineExit envQuiet plQuiet 10 st0 =
      .ok { recorded := [], setupCalls := [0], teardownCalls := [0] } ∧
    withPipeline envQuiet plQuiet 10 (some "bodyboom") st0 =
      .exc "bodyboom"
        { recorded := [], setupCalls := [0], teardownCalls := [0] } :=
  ⟨by decide,
    (c10_pipeline_with_block envQuiet plQuiet 10 st0 (some "bodyboom")
      { recorded := [], setupCalls := [0], teardownCalls := [0] }).2.2
      (by decide)⟩

/-- C1 counterexample: with a single source whose generator raises
`"boom"` on the first pull, `Pipeline.__exit__` propagates the exception
with `setup()` already called on processor 0 and `teardown()` called on
nothing — the claimed guaranteed release does not happen because
`__exit__` has no try/finally around the runner call. -/
theorem c1_run_failure_skips_teardown :
    pipelineExit envBoom plBoom 10 st0 =
      .exc "boom" { recorded := [], setupCalls := [0], teardownCalls := [] } ∧
    0 ∈ ({ recorded := [], setupCalls := [0],
           teardownCalls := [] } : RunState).setupCalls ∧
    0 ∉ ({ recorded := [], setupCalls := [0],
           teardownCalls := [] } : RunState).teardownCalls :=
  ⟨by decide, by decide, by decide⟩

/-- C1 (amended): when the runner raises during a pipeline run, the
exception propagates out of `Pipeline.__exit__` unchanged and `teardown()`
is invoked on no processor at all — teardown happens only on the normal
path. -/
theorem c1_no_teardown_on_run_failure :
    ∀ (env : Env) (pl : Pipeline) (fuel : Nat) (st : RunState) (m : String)
      (st' : RunState),
      runnerRun env fuel pl.sources Option.none (pipelineSetup env pl st).2 =
        .exc m st' →
      pipelineExit env pl fuel st = .exc m st' ∧
        st'.teardownCalls = st.teardownCalls := by
  intro env pl fuel st m st' h
  constructor
  · simp only [pipelineExit, h]
  · have hl := runnerRun_life env fuel pl.sources Option.none
      (pipelineSetup env pl st).2
    rw [h] at hl
    have h2 : (pipelineSetup env pl st).2.teardownCalls = st.teardownCalls := by
      simp [pipelineSetup]
    exact (by simpa [RunResult.state] using hl.2 : st'.teardownCalls = _).trans h2

/-- Witness for C1 (amended) on the concrete raising pipeline. -/
theorem c1_no_teardown_on_run_failure_witness :
    runnerRun envBoom 10 plBoom.sources Option.none
        (pipelineSetup envBoom plBoom st0).2 =
      .exc "boom" { recorded := [], setupCalls := [0], teardownCalls := [] } ∧
    (pipelineExit envBoom plBoom 10 st0 =
        .exc "boom"
          { recorded := [], setupCalls := [0], teardownCalls := [] } ∧
      ({ recorded := [], setupCalls := [0],
         teardownCalls := [] } : RunState).teardownCalls =
        st0.teardownCalls) :=
  ⟨by decide,
    c1_no_teardown_on_run_failure envBoom plBoom 10 st0 "boom"
      { recorded := [], setupCalls := [0], teardownCalls := [] }
      (by decide)⟩


/-!
## The graph traversal of `Pipeline._get_graph`

`buildGraphAux` is the worklist form of the recursive `add`; the lemmas
below prove that the fuel `graphFuel` always suffices (termination on any
connection graph, cyclic ones included), that the resulting map is keyed
without duplicates, and that its keys are exactly the processors reachable
from the sources.
-/

theorem graphKeys_append (g ext : Graph) :
    graphKeys (g ++ ext) = graphKeys g ++ graphKeys ext := by
  simp [graphKeys]

theorem restSum_append_le (env : Env) (g ext : Graph) :
    restSum env (g ++ ext) ≤ restSum env g := by
  induction env with
  | nil => exact Nat.le_refl 0
  | cons p rest ih =>
    simp only [restSum]
    have hterm : (if p.pid ∈ graphKeys (g ++ ext) then 0
          else (allDests p).length) ≤
        (if p.pid ∈ graphKeys g then 0 else (allDests p).length) := by
      by_cases h : p.pid ∈ graphKeys g
      · have : p.pid ∈ graphKeys (g ++ ext) := by
          rw [graphKeys_append]
          exact List.mem_append_left _ h
        simp [h, this]
      · by_cases h2 : p.pid ∈ graphKeys (g ++ ext) <;> simp [h, h2]
    exact Nat.add_le_add hterm ih

theorem restSum_insert_le (env : Env) (g : Graph) (pid : ProcId)
    (node : Node) (p : Proc) (hmem : p ∈ env) (hpid : p.pid = pid)
    (hnot : pid ∉ graphKeys g) :
    restSum env (g ++ [(pid, node)]) + (allDests p).length ≤
      restSum env g := by
  induction env with
  | nil => cases hmem
  | cons q rest ih =>
    simp only [restSum]
    have hkeys : graphKeys (g ++ [(pid, node)]) = graphKeys g ++ [pid] := by
      rw [graphKeys_append]; rfl
    by_cases hq : q.pid ∈ graphKeys g
    · have hq' : q.pid ∈ graphKeys (g ++ [(pid, node)]) := by
        rw [hkeys]; exact List.mem_append_left _ hq
      rw [if_pos hq', if_pos hq]
      rcases List.mem_cons.mp hmem with heq | hmem'
      · exact absurd (by rw [← hpid, heq]; exact hq) hnot
      · have := ih hmem'
        omega
    · rw [if_neg hq]
      by_cases hq2 : q.pid = pid
      · have hq' : q.pid ∈ graphKeys (g ++ [(pid, node)]) := by
          rw [hkeys, hq2]
          exact List.mem_append_right _ (List.mem_singleton_self pid)
        rw [if_pos hq']
        rcases List.mem_cons.mp hmem with heq | hmem'
        · have hL : (allDests p).length = (allDests q).length := by rw [heq]
          have hA := restSum_append_le rest g [(pid, node)]
          omega
        · have := ih hmem'
          omega
      · have hq' : q.pid ∉ graphKeys (g ++ [(pid, node)]) := by
          rw [hkeys]
          intro hc
          rcases List.mem_append.mp hc with hc1 | hc2
          · exact hq hc1
          · exact hq2 (List.mem_singleton.mp hc2)
        rw [if_neg hq']
        rcases List.mem_cons.mp hmem with heq | hmem'
        · exact absurd (by rw [← heq]; exact hpid) hq2
        · have := ih hmem'
          omega

theorem restSum_nil_graph (env : Env) :
    restSum env [] = (env.map (fun p => (allDests p).length)).sum := by
  induction env with
  | nil => rfl
  | cons p rest ih =>
    simp [restSum, graphKeys, ih]

theorem find?_isSome_mem (g : Graph) (pid : ProcId)
    (h : (g.find? (fun n => n.1 == pid)).isSome = true) :
    pid ∈ graphKeys g := by
  obtain ⟨n, hn⟩ := Option.isSome_iff_exists.mp h
  have h1 := List.find?_some hn
  have h2 := List.mem_of_find?_eq_some hn
  simp only [beq_iff_eq] at h1
  exact h1 ▸ List.mem_map_of_mem (fun x => x.1) h2

theorem find?_not_isSome_not_mem (g : Graph) (pid : ProcId)
    (h : ¬((g.find? (fun n => n.1 == pid)).isSome = true)) :
    pid ∉ graphKeys g := by
  intro hmem
  obtain ⟨n, hn, hn2⟩ := List.mem_map.mp hmem
  have hnone : g.find? (fun n => n.1 == pid) = Option.none := by
    cases hf : g.find? (fun n => n.1 == pid) with
    | none => rfl
    | some n0 => rw [hf] at h; simp at h
  have := List.find?_eq_none.mp hnone n hn
  simp [hn2] at this

theorem envLookup_none_not_mem (env : Env) (pid : ProcId)
    (h : envLookup env pid = Option.none) : pid ∉ envPids env := by
  intro hmem
  obtain ⟨p, hp, hpe⟩ := List.mem_map.mp hmem
  have := List.find?_eq_none.mp h p hp
  simp [hpe, beq_iff_eq] at this

theorem envLookup_some_facts (env : Env) (pid : ProcId) (p : Proc)
    (h : envLookup env pid = some p) :
    p ∈ env ∧ p.pid = pid ∧ pid ∈ envPids env := by
  have h1 := List.find?_some h
  have h2 := List.mem_of_find?_eq_some h
  simp only [beq_iff_eq] at h1
  exact ⟨h2, h1, h1 ▸ List.mem_map_of_mem (fun x => x.pid) h2⟩

theorem destsOfEnv_mem_pids (env : Env) (hc : ClosedEnv env) (q d : ProcId)
    (hd : d ∈ destsOfEnv env q) : d ∈ envPids env := by
  unfold destsOfEnv at hd
  cases hl : envLookup env q with
  | none => rw [hl] at hd; cases hd
  | some p =>
    rw [hl] at hd
    exact hc p (envLookup_some_facts env q p hl).1 d hd

theorem buildGraphAux_isSome (env : Env) :
    ∀ (fuel : Nat) (ws : List ProcId) (g : Graph),
      ws.length + restSum env g ≤ fuel →
      (buildGraphAux env fuel ws g).isSome = true := by
  intro fuel
  induction fuel with
  | zero =>
    intro ws g h
    cases ws with
    | nil => simp [buildGraphAux]
    | cons pid ws => simp [List.length_cons] at h
  | succ fuel ih =>
    intro ws g h
    cases ws with
    | nil => simp [buildGraphAux]
    | cons pid ws =>
      simp only [buildGraphAux]
      split
      · refine ih ws g ?_
        simp only [List.length_cons] at h
        omega
      · cases hl : envLookup env pid with
        | none =>
          refine ih ws g ?_
          simp only [List.length_cons] at h
          omega
        | some p =>
          rename_i hcond
          have hfacts := envLookup_some_facts env pid p hl
          have hnot := find?_not_isSome_not_mem g pid hcond
          have hins := restSum_insert_le env g pid p.rels p hfacts.1
            hfacts.2.1 hnot
          refine ih (allDests p ++ ws) (g ++ [(pid, p.rels)]) ?_
          simp only [List.length_append, List.length_cons] at h ⊢
          omega

theorem getGraph_eq (env : Env) (sources : List ProcId) :
    buildGraphAux env (graphFuel env sources) sources [] =
      some (getGraph env sources) := by
  have h := buildGraphAux_isSome env (graphFuel env sources) sources []
    (by rw [restSum_nil_graph, graphFuel])
  obtain ⟨g, hg⟩ := Option.isSome_iff_exists.mp h
  rw [getGraph, hg]
  rfl

theorem buildGraphAux_prefix (env : Env) :
    ∀ (fuel : Nat) (ws : List ProcId) (g g' : Graph),
      buildGraphAux env fuel ws g = some g' →
      ∃ ext, g' = g ++ ext := by
  intro fuel
  induction fuel with
  | zero =>
    intro ws g g' h
    cases ws with
    | nil =>
      simp only [buildGraphAux, Option.some.injEq] at h
      exact ⟨[], by simp [← h]⟩
    | cons pid ws => simp [buildGraphAux] at h
  | succ fuel ih =>
    intro ws g g' h
    cases ws with
    | nil =>
      simp only [buildGraphAux, Option.some.injEq] at h
      exact ⟨[], by simp [← h]⟩
    | cons pid ws =>
      simp only [buildGraphAux] at h
      split at h
      · exact ih ws g g' h
      · cases hl : envLookup env pid with
        | none => rw [hl] at h; exact ih ws g g' h
        | some p =>
          rw [hl] at h
          obtain ⟨ext, hext⟩ := ih (allDests p ++ ws) (g ++ [(pid, p.rels)]) g' h
          exact ⟨(pid, p.rels) :: ext, by simp [hext]⟩

theorem buildGraphAux_nodup (env : Env) :
    ∀ (fuel : Nat) (ws : List ProcId) (g g' : Graph),
      buildGraphAux env fuel ws g = some g' →
      (graphKeys g).Nodup → (graphKeys g').Nodup := by
  intro fuel
  induction fuel with
  | zero =>
    intro ws g g' h hnd
    cases ws with
    | nil =>
      simp only [buildGraphAux, Option.some.injEq] at h
      exact h ▸ hnd
    | cons pid ws => simp [buildGraphAux] at h
  | succ fuel ih =>
    intro ws g g' h hnd
    cases ws with
    | nil =>
      simp only [buildGraphAux, Option.some.injEq] at h
      exact h ▸ hnd
    | cons pid ws =>
      simp only [buildGraphAux] at h
      split at h
      · exact ih ws g g' h hnd
      · cases hl : envLookup env pid with
        | none => rw [hl] at h; exact ih ws g g' h hnd
        | some p =>
          rw [hl] at h
          rename_i hcond
          have hnot := find?_not_isSome_not_mem g pid hcond
          refine ih (allDests p ++ ws) (g ++ [(pid, p.rels)]) g' h ?_
          rw [graphKeys_append]
          refine List.Nodup.append hnd (by simp [graphKeys]) ?_
          intro a ha hb
          simp only [graphKeys, List.map_cons, List.map_nil,
            List.mem_singleton] at hb
          exact hnot (hb ▸ ha)

theorem buildGraphAux_ws_mem (env : Env) :
    ∀ (fuel : Nat) (ws : List ProcId) (g g' : Graph),
      buildGraphAux env fuel ws g = some g' →
      ∀ q, q ∈ ws → q ∈ envPids env → q ∈ graphKeys g' := by
  intro fuel
  induction fuel with
  | zero =>
    intro ws g g' h q hq _
    cases ws with
    | nil => cases hq
    | cons pid ws => simp [buildGraphAux] at h
  | succ fuel ih =>
    intro ws g g' h q hq hqenv
    cases ws with
    | nil => cases hq
    | cons pid ws =>
      simp only [buildGraphAux] at h
      split at h
      · rename_i hcond
        rcases List.mem_cons.mp hq with rfl | hq'
        · obtain ⟨ext, hext⟩ := buildGraphAux_prefix env fuel ws g g' h
          rw [hext, graphKeys_append]
          exact List.mem_append_left _ (find?_isSome_mem g q hcond)
        · exact ih ws g g' h q hq' hqenv
      · cases hl : envLookup env pid with
        | none =>
          rw [hl] at h
          rcases List.mem_cons.mp hq with rfl | hq'
          · exact absurd hqenv (envLookup_none_not_mem env q hl)
          · exact ih ws g g' h q hq' hqenv
        | some p =>
          rw [hl] at h
          rcases List.mem_cons.mp hq with rfl | hq'
          · obtain ⟨ext, hext⟩ :=
              buildGraphAux_prefix env fuel (allDests p ++ ws)
                (g ++ [(q, p.rels)]) g' h
            rw [hext, graphKeys_append, graphKeys_append]
            exact List.mem_append_left _ (List.mem_append_right _
              (List.mem_singleton_self q))
          · exact ih (allDests p ++ ws) (g ++ [(pid, p.rels)]) g' h q
              (List.mem_append_right _ hq') hqenv

theorem buildGraphAux_closed (env : Env) (hc : ClosedEnv env) :
    ∀ (fuel : Nat) (ws : List ProcId) (g g' : Graph),
      buildGraphAux env fuel ws g = some g' →
      (∀ q ∈ graphKeys g, q ∈ envPids env) →
      (∀ q ∈ graphKeys g, ∀ d ∈ destsOfEnv env q,
        d ∈ graphKeys g ∨ d ∈ ws) →
      ∀ q ∈ graphKeys g', ∀ d ∈ destsOfEnv env q, d ∈ graphKeys g' := by
  intro fuel
  induction fuel with
  | zero =>
    intro ws g g' h hpids hinv q hq d hd
    cases ws with
    | nil =>
      simp only [buildGraphAux, Option.some.injEq] at h
      subst h
      rcases hinv q hq d hd with hin | hin
      · exact hin
      · cases hin
    | cons pid ws => simp [buildGraphAux] at h
  | succ fuel ih =>
    intro ws g g' h hpids hinv q hq d hd
    cases ws with
    | nil =>
      simp only [buildGraphAux, Option.some.injEq] at h
      subst h
      rcases hinv q hq d hd with hin | hin
      · exact hin
      · cases hin
    | cons pid ws =>
      simp only [buildGraphAux] at h
      split at h
      · rename_i hcond
        refine ih ws g g' h hpids ?_ q hq d hd
        intro q0 hq0 d0 hd0
        rcases hinv q0 hq0 d0 hd0 with hin | hin
        · exact Or.inl hin
        · rcases List.mem_cons.mp hin with rfl | hin'
          · exact Or.inl (find?_isSome_mem g d0 hcond)
          · exact Or.inr hin'
      · cases hl : envLookup env pid with
        | none =>
          rw [hl] at h
          refine ih ws g g' h hpids ?_ q hq d hd
          intro q0 hq0 d0 hd0
          rcases hinv q0 hq0 d0 hd0 with hin | hin
          · exact Or.inl hin
          · rcases List.mem_cons.mp hin with rfl | hin'
            · exact absurd (destsOfEnv_mem_pids env hc q0 d0 hd0)
                (envLookup_none_not_mem env d0 hl)
            · exact Or.inr hin'
        | some p =>
          rw [hl] at h
          have hkeys : graphKeys (g ++ [(pid, p.rels)]) =
              graphKeys g ++ [pid] := by
            rw [graphKeys_append]; rfl
          refine ih (allDests p ++ ws) (g ++ [(pid, p.rels)]) g' h ?_ ?_
            q hq d hd
          · intro q0 hq0
            rw [hkeys] at hq0
            rcases List.mem_append.mp hq0 with hin | hin
            · exact hpids q0 hin
            · rw [List.mem_singleton.mp hin]
              exact (envLookup_some_facts env pid p hl).2.2
          · intro q0 hq0 d0 hd0
            rw [hkeys] at hq0
            rcases List.mem_append.mp hq0 with hin | hin
            · rcases hinv q0 hin d0 hd0 with hin2 | hin2
              · exact Or.inl (by rw [hkeys]; exact List.mem_append_left _ hin2)
              · rcases List.mem_cons.mp hin2 with rfl | hin3
                · exact Or.inl (by
                    rw [hkeys]
                    exact List.mem_append_right _ (List.mem_singleton_self d0))
                · exact Or.inr (List.mem_append_right _ hin3)
            · rw [List.mem_singleton.mp hin] at hd0
              have : destsOfEnv env pid = allDests p := by
                simp [destsOfEnv, hl]
              rw [this] at hd0
              exact Or.inr (List.mem_append_left _ hd0)

theorem buildGraphAux_reachable (env : Env) (sources : List ProcId) :
    ∀ (fuel : Nat) (ws : List ProcId) (g g' : Graph),
      buildGraphAux env fuel ws g = some g' →
      (∀ q ∈ ws, Reachable env sources q) →
      (∀ q ∈ graphKeys g, Reachable env sources q) →
      ∀ q ∈ graphKeys g', Reachable env sources q := by
  intro fuel
  induction fuel with
  | zero =>
    intro ws g g' h _ hg q hq
    cases ws with
    | nil =>
      simp only [buildGraphAux, Option.some.injEq] at h
      exact hg q (h ▸ hq)
    | cons pid ws => simp [buildGraphAux] at h
  | succ fuel ih =>
    intro ws g g' h hws hg q hq
    cases ws with
    | nil =>
      simp only [buildGraphAux, Option.some.injEq] at h
      exact hg q (h ▸ hq)
    | cons pid ws =>
      simp only [buildGraphAux] at h
      split at h
      · exact ih ws g g' h (fun q0 hq0 => hws q0 (List.mem_cons_of_mem pid hq0))
          hg q hq
      · cases hl : envLookup env pid with
        | none =>
          rw [hl] at h
          exact ih ws g g' h
            (fun q0 hq0 => hws q0 (List.mem_cons_of_mem pid hq0)) hg q hq
        | some p =>
          rw [hl] at h
          have hpid : Reachable env sources pid :=
            hws pid (List.mem_cons_self pid ws)
          refine ih (allDests p ++ ws) (g ++ [(pid, p.rels)]) g' h ?_ ?_ q hq
          · intro q0 hq0
            rcases List.mem_append.mp hq0 with hin | hin
            · exact Reachable.step pid q0 p hpid hl hin
            · exact hws q0 (List.mem_cons_of_mem pid hin)
          · intro q0 hq0
            rw [graphKeys_append] at hq0
            rcases List.mem_append.mp hq0 with hin | hin
            · exact hg q0 hin
            · rw [List.mem_singleton.mp hin]
              exact hpid

theorem getGraph_keys_iff (env : Env) (sources : List ProcId)
    (hs : ∀ s ∈ sources, s ∈ envPids env) (hc : ClosedEnv env) :
    (graphKeys (getGraph env sources)).Nodup ∧
      ∀ q, q ∈ graphKeys (getGraph env sources) ↔
        Reachable env sources q := by
  have hg := getGraph_eq env sources
  refine ⟨buildGraphAux_nodup env _ sources [] _ hg (by simp [graphKeys]), ?_⟩
  intro q
  constructor
  · intro h
    exact buildGraphAux_reachable env sources _ sources [] _ hg
      (fun s hsrc => Reachable.src s hsrc) (by simp [graphKeys]) q h
  · intro hr
    induction hr with
    | src s hsrc =>
      exact buildGraphAux_ws_mem env _ sources [] _ hg s hsrc (hs s hsrc)
    | step pid d p hr hp hd ihq =>
      refine buildGraphAux_closed env hc _ sources [] _ hg
        (by simp [graphKeys]) (by simp [graphKeys]) pid ihq d ?_
      simp only [destsOfEnv, hp]
      exact hd

/-!
## C3: cyclic graphs, termination, exactly-once setup and teardown
-/

/-- C3: for any environment whose sources and destinations are live
processors — cyclic connection graphs included — the graph traversal of
`Pipeline._get_graph` completes within the computed fuel bound and yields
a finite id-keyed map without duplicate keys whose keys are exactly the
processors reachable from the sources; and a completing pipeline run
(`setup` / `run` / `teardown` in `Pipeline.__exit__`) calls `setup()` and
`teardown()` exactly once on every reachable processor. -/
theorem c3_graph_lifecycle :
    ∀ (env : Env) (pl : Pipeline) (fuel : Nat) (st st' : RunState),
      (∀ s ∈ pl.sources, s ∈ envPids env) →
      ClosedEnv env →
      pipelineExit env pl fuel st = .ok st' →
      buildGraphAux env (graphFuel env pl.sources) pl.sources [] =
        some (getGraph env pl.sources) ∧
      (graphKeys (getGraph env pl.sources)).Nodup ∧
      (∀ q, q ∈ graphKeys (getGraph env pl.sources) ↔
        Reachable env pl.sources q) ∧
      ∀ q, Reachable env pl.sources q →
        st'.setupCalls.count q = st.setupCalls.count q + 1 ∧
        st'.teardownCalls.count q = st.teardownCalls.count q + 1 := by
  intro env pl fuel st st' hs hc hex
  obtain ⟨hnd, hiff⟩ := getGraph_keys_iff env pl.sources hs hc
  refine ⟨getGraph_eq env pl.sources, hnd, hiff, ?_⟩
  intro q hr
  have hqmem : q ∈ graphKeys (getGraph env pl.sources) := (hiff q).mpr hr
  have hcount : (graphKeys (getGraph env pl.sources)).count q = 1 :=
    List.count_eq_one_of_mem hnd hqmem
  cases hrun : runnerRun env fuel pl.sources Option.none
      (pipelineSetup env pl st).2 with
  | ok st2 =>
    have hex2 : st' = pipelineTeardown (pipelineSetup env pl st).1 st2 := by
      simp only [pipelineExit, hrun, RunResult.ok.injEq] at hex
      exact hex.symm
    have hlife := runnerRun_life env fuel pl.sources Option.none
      (pipelineSetup env pl st).2
    rw [hrun] at hlife
    simp only [RunResult.state] at hlife
    have hsetup2 : st2.setupCalls =
        st.setupCalls ++ graphKeys (getGraph env pl.sources) := by
      rw [hlife.1]
      simp [pipelineSetup]
    have hteard2 : st2.teardownCalls = st.teardownCalls := by
      rw [hlife.2]
      simp [pipelineSetup]
    constructor
    · rw [hex2]
      simp only [pipelineTeardown]
      rw [hsetup2, List.count_append, hcount]
    · rw [hex2]
      simp only [pipelineTeardown]
      have : (pipelineSetup env pl st).1 = getGraph env pl.sources := by
        simp [pipelineSetup]
      rw [this, hteard2, List.count_append, hcount]
  | exc m st2 =>
    simp only [pipelineExit, hrun] at hex
    exact RunResult.noConfusion hex
  | noFuel st2 =>
    simp only [pipelineExit, hrun] at hex
    exact RunResult.noConfusion hex

/-- Witness for C3 on the cyclic graph A -> B -> A rooted at A. -/
theorem c3_graph_lifecycle_witness :
    ClosedEnv envCycle ∧
    pipelineExit envCycle plCycle 10 st0 =
      .ok { recorded := [], setupCalls := [0, 1], teardownCalls := [0, 1] } ∧
    (buildGraphAux envCycle (graphFuel envCycle plCycle.sources)
        plCycle.sources [] = some (getGraph envCycle plCycle.sources) ∧
      (graphKeys (getGraph envCycle plCycle.sources)).Nodup ∧
      (∀ q, q ∈ graphKeys (getGraph envCycle plCycle.sources) ↔
        Reachable envCycle plCycle.sources q) ∧
      ∀ q, Reachable envCycle plCycle.sources q →
        ({ recorded := [], setupCalls := [0, 1],
           teardownCalls := [0, 1] } : RunState).setupCalls.count q =
            st0.setupCalls.count q + 1 ∧
          ({ recorded := [], setupCalls := [0, 1],
             teardownCalls := [0, 1] } : RunState).teardownCalls.count q =
            st0.teardownCalls.count q + 1) :=
  ⟨by unfold ClosedEnv; decide, by decide,
    c3_graph_lifecycle envCycle plCycle 10 st0
      { recorded := [], setupCalls := [0, 1], teardownCalls := [0, 1] }
      (by decide) (by unfold ClosedEnv; decide) (by decide)⟩

end Pypes
